import Mathlib

/-!
Verification development for the `proteinshake` dataset-ingestion excerpt.

The development shallowly embeds the two source files of the excerpt:

* `src/proteinshake/datasets/misato.py` (`MisatoProteinLigandDataset`):
  the download/extract pipeline, filename-to-ID extraction, the CSV
  metadata join, and the glob-based file discovery;
* `src/proteinshake/representations/sequence.py` (`Sequence`,
  `SequenceDataset`): the sequence-representation wrapper.

Python dictionaries are modelled as insertion-ordered association lists,
CSV cell values as `Option String` (`none` is a null/NaN cell), raised
exceptions as `Option`/explicit event traces, and the filesystem and the
network as explicit oracle parameters.  Python strings are modelled as
`String` or `List Char` (`String.toList` mediates); machine-level details
(HTTP, tar decompression, HDF5) stay behind the oracles, exactly as the
source treats them behind `requests`/`tarfile`.
-/

namespace ProteinShake

/-- A Python `dict` with string keys, modelled as an insertion-ordered
association list.  A value `none` models Python `None` / pandas NaN.
`getF m k` models `m[k]` lookup (`none` = `KeyError`). -/
def getF (m : List (String × Option String)) (k : String) : Option (Option String) :=
  match m with
  | [] => none
  | kv :: rest => if kv.1 = k then some kv.2 else getF rest k

/-- `setF m k v` models the Python dict assignment `m[k] = v`: it updates
the first binding of `k` in place, or appends a new binding (Python dicts
keep insertion order). -/
def setF (m : List (String × Option String)) (k : String) (v : Option String) :
    List (String × Option String) :=
  match m with
  | [] => [(k, v)]
  | kv :: rest => if kv.1 = k then (k, v) :: rest else kv :: setF rest k v

/-- `containsSub needle hay`: `needle` occurs as a contiguous substring of
`hay`.  Models pandas `Series.str.contains(pat)` for patterns without
regex metacharacters (the `ID` strings of the MISATO metadata join). -/
def containsSub (needle hay : List Char) : Bool :=
  match hay with
  | [] => needle.isPrefixOf ([] : List Char)
  | _ :: rest => needle.isPrefixOf hay || containsSub needle rest

/-- The protein dictionary of the spec: nested mappings `protein`,
`residue`, `atom` (source: produced by the parse stage, consumed by
`add_protein_attributes` and `Sequence`). -/
structure ProteinDict where
  protein : List (String × Option String)
  residue : List (String × Option String)
  atom : List (String × Option String)
deriving DecidableEq, Repr

/-! ## `MisatoProteinLigandDataset.download` (misato.py lines 50-115)

`download_url`, `warning`, `error` and `progressbar` live in
`proteinshake.utils`, which is not part of the excerpt.  Modelled from the
spec: `download_url` performs one single-shot fetch and may raise (here an
oracle `dl : String → Option String` returning the exception message on
failure), `warning`/`error` log and never raise, and `progressbar`
iterates its argument in order.  The observable behaviour of `download` is
its trace of events. -/

/-- Observable events of one `download` run. -/
inductive Event where
  | download (file : String)
  | warnDownload (file : String) (msg : String)
  | extract (path : String)
  | warnExtract (path : String) (msg : String)
  | warnNoPdb
  | errored (msg : String)
deriving DecidableEq, Repr

/-- The `files_to_download` list built by `download` (misato.py lines
53-83): the `if/elif` chain on `self.subset` (returning early with an
error for an unknown subset, modelled as `none`), then the optional MD/QM
archives, then the metadata CSV. -/
def filesToDownload (subset : String) (include_md : Bool) : Option (List String) :=
  let base : Option (List String) :=
    if subset = "train" then some ["train_set.tar.gz"]
    else if subset = "test" then some ["test_set.tar.gz"]
    else if subset = "val" then some ["val_set.tar.gz"]
    else none
  match base with
  | none => none
  | some fs =>
    let fs := if include_md then
        fs ++ ["MD_" ++ subset ++ "_set.tar.gz", "QM_" ++ subset ++ "_set.tar.gz"]
      else fs
    some (fs ++ ["misato_db.csv"])

/-- Models Python `filename.endswith('.tar.gz')`. -/
def endsWithTarGz (f : String) : Bool :=
  (".tar.gz".toList).isSuffixOf f.toList

/-- One iteration of the download loop (misato.py lines 86-92): attempt
the fetch; on an exception (`dl f = some e`) log a warning and continue.
-/
def dlStep (dl : String → Option String) (f : String) : List Event :=
  Event.download f ::
    (match dl f with
     | none => []
     | some e => [Event.warnDownload f e])

/-- One iteration of the extraction loop (misato.py lines 94-99 and
`_extract_tar_gz`, lines 107-115): only `.tar.gz` names whose archive
exists on disk are extracted; an extraction exception is logged as a
warning and the loop continues. -/
def extractStep (root : String) (fexists : String → Bool)
    (extractRes : String → Option String) (f : String) : List Event :=
  if endsWithTarGz f then
    if fexists (root ++ "/raw/" ++ f) then
      Event.extract (root ++ "/raw/" ++ f) ::
        (match extractRes (root ++ "/raw/" ++ f) with
         | none => []
         | some e => [Event.warnExtract (root ++ "/raw/" ++ f) e])
    else []
  else []

/-- `MisatoProteinLigandDataset.download` (misato.py lines 50-105), as a
trace of events.  Oracles: `dl f` is the exception message if
`download_url` raises for file `f` (`none` = success); `fexists p` is
`os.path.exists(p)` at extraction time; `extractRes p` is the exception
message if `tarfile` extraction of `p` raises; `numPdb` is
`len(self.get_raw_files())` after extraction.  Every exception of the
download and extraction loops is caught and logged
(`warnDownload`/`warnExtract`), so the function is total: it returns a
trace for every oracle, never a raised exception. -/
def download (subset : String) (include_md : Bool) (root : String)
    (dl : String → Option String) (fexists : String → Bool)
    (extractRes : String → Option String) (numPdb : Nat) : List Event :=
  match filesToDownload subset include_md with
  | none =>
      [Event.errored ("Unknown subset: " ++ subset ++ ". Must be one of: train, test, val")]
  | some files =>
      files.flatMap (dlStep dl)
      ++ files.flatMap (extractStep root fexists extractRes)
      ++ (if numPdb = 0 then [Event.warnNoPdb] else [])

/-- The files `download` attempted to fetch, in order of attempt. -/
def attemptsOf (tr : List Event) : List String :=
  tr.filterMap fun e =>
    match e with
    | Event.download f => some f
    | _ => none

/-- The extraction attempts of a trace, in order. -/
def extractsOf (tr : List Event) : List String :=
  tr.filterMap fun e =>
    match e with
    | Event.extract p => some p
    | _ => none

/-! ## `MisatoProteinLigandDataset.add_protein_attributes` (misato.py lines 117-148) -/

/-- One row of `misato_db.csv`, as pandas exposes it: column name to cell
(`none` cell = NaN).  `rowMatches pid row` models membership of the row in
`metadata[metadata['ID'].str.contains(protein_id, na=False)]`: a null or
missing `ID` cell never matches (`na=False`). -/
def rowMatches (pid : String) (row : List (String × Option String)) : Bool :=
  match getF row "ID" with
  | some (some v) => containsSub pid.toList v.toList
  | _ => false

/-- The final loop of `add_protein_attributes` (misato.py lines 140-142):
for each column in order, if it is present in the row and not null
(`pd.notna`), assign it into the protein mapping. -/
def attachCols (row : List (String × Option String)) (cols : List String)
    (p : List (String × Option String)) : List (String × Option String) :=
  match cols with
  | [] => p
  | c :: rest =>
    attachCols row rest
      (match getF row c with
       | some (some v) => setF p c (some v)
       | _ => p)

/-- The two unconditional assignments of `add_protein_attributes`
(misato.py lines 131-137): `if 'affinity' in row:` assign the cell —
null or not — under `key`; absent column, leave the mapping alone. -/
def attachOpt (p : List (String × Option String)) (key : String)
    (cell : Option (Option String)) : List (String × Option String) :=
  match cell with
  | some v => setF p key v
  | none => p

/-- `MisatoProteinLigandDataset.add_protein_attributes` (misato.py lines
117-148).  `metadataExists` models `os.path.exists(metadata_path)`;
`metadata` is the parsed CSV in row order.  The whole body is wrapped in
`try/except`; the except handler logs a warning that interpolates
`protein_dict['protein']['ID']`, so:

* a missing `ID` key raises `KeyError` inside the `try`, and the handler
  itself re-raises looking it up — the exception escapes (`none`);
* a null `ID` makes `str.contains(None)` raise; the handler logs and the
  dict is returned unchanged;
* otherwise `matching_rows.iloc[0]` — the first row of the filter in CSV
  order — supplies the attributes: `affinity` and `ligand_smiles`
  whenever the column is present (even when null), and `resolution`,
  `r_work`, `r_free`, `method` when present and not null. -/
def add_protein_attributes (metadataExists : Bool)
    (metadata : List (List (String × Option String))) (pd : ProteinDict) :
    Option ProteinDict :=
  if metadataExists then
    match getF pd.protein "ID" with
    | none => none
    | some none => some pd
    | some (some pid) =>
      match metadata.filter (fun row => rowMatches pid row) with
      | [] => some pd
      | row :: _ =>
        some { pd with
          protein := attachCols row ["resolution", "r_work", "r_free", "method"]
            (attachOpt
              (attachOpt pd.protein "binding_affinity" (getF row "affinity"))
              "ligand_smiles" (getF row "ligand_smiles")) }
  else some pd

/-! ## `MisatoProteinLigandDataset.get_id_from_filename` (misato.py lines 43-48) -/

/-- Models `os.path.basename` (POSIX): the part of the path after the last
slash. -/
def basename (p : List Char) : List Char :=
  (p.reverse.takeWhile (fun c => c != '/')).reverse

/-- Models Python `s.replace('.pdb', '')`: scan left to right, removing
every (non-overlapping) occurrence of `".pdb"`. -/
def stripPdbAux : List Char → List Char
  | '.' :: 'p' :: 'd' :: 'b' :: rest => stripPdbAux rest
  | c :: rest => c :: stripPdbAux rest
  | [] => []

/-- `MisatoProteinLigandDataset.get_id_from_filename` (misato.py lines
43-48): `os.path.basename(filename).replace('.pdb', '')`. -/
def get_id_from_filename (filename : List Char) : List Char :=
  stripPdbAux (basename filename)

/-- The specification's reading of the extraction (spec-side definition,
for comparison with `get_id_from_filename`): the basename with a trailing
`".pdb"` extension removed, and nothing else. -/
def stripTrailingPdb (name : List Char) : List Char :=
  if ".pdb".toList.isSuffixOf name then name.take (name.length - 4) else name

/-! ## File discovery (misato.py lines 39-41 and 150-158)

`glob.glob(pattern, recursive=True)` enumerates the filesystem; the
filesystem is modelled as the list `fs` of the paths of all existing
files, and the glob call as the filter selecting the paths matched by the
pattern.  For the patterns used here — `{base}/**/*{ext}` — a path
matches iff it is `base` followed by `/`, zero or more non-hidden
directory segments, and a non-hidden filename ending in `ext` (glob does
not match names starting with a dot). -/

/-- Split a path at `/` separators (semantics of `str.split('/')`: always
at least one, possibly empty, segment). -/
def splitSlash : List Char → List (List Char)
  | [] => [[]]
  | c :: rest =>
    if c = '/' then [] :: splitSlash rest
    else
      match splitSlash rest with
      | [] => [[c]]
      | seg :: segs => (c :: seg) :: segs

/-- Join path segments with `/` separators (left inverse of
`splitSlash`). -/
def joinSlash : List (List Char) → List Char
  | [] => []
  | [p] => p
  | p :: ps => p ++ '/' :: joinSlash ps

/-- A path segment the glob patterns can match: nonempty and not starting
with a dot (glob skips hidden files and directories). -/
def okSeg (s : List Char) : Bool :=
  match s with
  | [] => false
  | c :: _ => c != '.'

/-- `*{ext}` matching a filename segment. -/
def fileMatch (ext : List Char) (name : List Char) : Bool :=
  okSeg name && ext.isSuffixOf name

/-- `**/*{ext}` matching a nonempty list of path segments: zero or more
matchable directory segments, then a filename matching `*{ext}`. -/
def segsMatch (ext : List Char) : List (List Char) → Bool
  | [] => false
  | [name] => fileMatch ext name
  | d :: rest => okSeg d && segsMatch ext rest

/-- `{base}/**/*{ext}` (recursive) matching a whole path. -/
def globMatch (base ext p : List Char) : Bool :=
  (base ++ ['/']).isPrefixOf p && segsMatch ext (splitSlash (p.drop (base.length + 1)))

/-- `MisatoProteinLigandDataset.get_raw_files` (misato.py lines 39-41):
`glob.glob(f'{root}/raw/files/**/*.pdb', recursive=True)` over the
modelled filesystem `fs`. -/
def get_raw_files (root : List Char) (fs : List (List Char)) : List (List Char) :=
  fs.filter (globMatch (root ++ "/raw/files".toList) ".pdb".toList)

/-- `MisatoProteinLigandDataset.get_ligand_files` (misato.py lines
150-152): the same glob with pattern `*.sdf`. -/
def get_ligand_files (root : List Char) (fs : List (List Char)) : List (List Char) :=
  fs.filter (globMatch (root ++ "/raw/files".toList) ".sdf".toList)

/-- `MisatoProteinLigandDataset.get_md_files` (misato.py lines 154-158):
the empty list when `include_md` is false, otherwise the glob with
pattern `*.xtc`. -/
def get_md_files (include_md : Bool) (root : List Char) (fs : List (List Char)) :
    List (List Char) :=
  if !include_md then [] else fs.filter (globMatch (root ++ "/raw/files".toList) ".xtc".toList)

/-- Spec-side characterisation of the glob patterns `{base}/**/*{ext}`:
the path decomposes as `base`, a slash, zero or more nonempty non-hidden
slash-free directory segments, and a non-hidden slash-free filename of
the form `stem ++ ext`. -/
def GlobSpec (base ext p : List Char) : Prop :=
  ∃ dirs name stem,
    p = base ++ '/' :: joinSlash (dirs ++ [name]) ∧
    (∀ d ∈ dirs, d ≠ [] ∧ d.head? ≠ some '.' ∧ '/' ∉ d) ∧
    name.head? ≠ some '.' ∧ '/' ∉ name ∧ name = stem ++ ext

/-! ## `Sequence` and `SequenceDataset` (sequence.py)

`tokenize` lives in `proteinshake.utils`, which is not part of the
excerpt.  Modelled from the spec: it turns an amino-acid string into its
tokenized integer form; here it is an arbitrary function parameter
`tokenize : String → List Nat`, which is all the claims about the wrapper
need. -/

/-- A Python iterable as passed to `SequenceDataset`: either a `list`
(which has `len`) or a generator (which does not). -/
inductive PyIterable (α : Type) where
  | pylist (xs : List α)
  | gen (xs : List α)

/-- Python `len`: raises `TypeError` (modelled `none`) on a generator. -/
def pyLen {α : Type} : PyIterable α → Option Nat
  | PyIterable.pylist xs => some xs.length
  | PyIterable.gen _ => none

/-- The elements an iterable yields, in order. -/
def pyElems {α : Type} : PyIterable α → List α
  | PyIterable.pylist xs => xs
  | PyIterable.gen xs => xs

/-- `Sequence` (sequence.py lines 9-22): the record built by
`Sequence.__init__`. -/
structure Sequence where
  protein_dict : ProteinDict
  sequence : String
  tokens : List Nat
  data : List Nat
deriving DecidableEq, Repr

/-- `Sequence.__init__` (sequence.py lines 18-22): reads
`protein['protein']['sequence']` (raising, modelled `none`, when the key
is missing or the value is null), tokenizes it, and aliases `data` to
`tokens`. -/
def Sequence.fromProtein (tokenize : String → List Nat) (protein : ProteinDict) :
    Option Sequence :=
  match getF protein.protein "sequence" with
  | some (some s) => some ⟨protein, s, tokenize s, tokenize s⟩
  | _ => none

/-- `SequenceDataset` (sequence.py lines 25-43): the state built by
`SequenceDataset.__init__`. -/
structure SequenceDataset where
  verbosity : Nat
  path : String
  sequences : List Sequence
  size : Nat
deriving DecidableEq, Repr

/-- Build one `Sequence` per yielded protein, in yield order; the first
raised exception aborts the construction (the comprehension
`list(Sequence(p) for p in ...)`). -/
def initSequences (tokenize : String → List Nat) : List ProteinDict → Option (List Sequence)
  | [] => some []
  | p :: ps =>
    match Sequence.fromProtein tokenize p, initSequences tokenize ps with
    | some s, some rest => some (s :: rest)
    | _, _ => none

/-- `SequenceDataset.__init__` (sequence.py lines 38-43).  The
comprehension iterates `tqdm(proteins, total=len(proteins))`, so
`len(proteins)` is evaluated first: on a generator it raises `TypeError`
(modelled `none`) before any protein is consumed. -/
def SequenceDataset.init (tokenize : String → List Nat)
    (proteins : PyIterable ProteinDict) (root name : String) (verbosity : Nat) :
    Option SequenceDataset :=
  match pyLen proteins with
  | none => none
  | some _ =>
    match initSequences tokenize (pyElems proteins) with
    | none => none
    | some seqs =>
      some { verbosity := verbosity
             path := root ++ "/processed/sequence/" ++ name
             sequences := seqs
             size := seqs.length }

/-- `SequenceDataset.__len__` (sequence.py lines 45-46), as result plus
post-state. -/
def SequenceDataset.lenOp (d : SequenceDataset) : Nat × SequenceDataset :=
  (d.sequences.length, d)

/-- `SequenceDataset.__getitem__` (sequence.py lines 48-53): the item
dict `{'sequence': tensor(seq.tokens), 'id': idx}` (the tensor modelled
by its entries), `none` on an out-of-range index, plus post-state. -/
def SequenceDataset.getitem (d : SequenceDataset) (idx : Nat) :
    Option (List Nat × Nat) × SequenceDataset :=
  (match d.sequences[idx]? with
   | some seq => some (seq.tokens, idx)
   | none => none, d)

/-- `SequenceDataset.strings` (sequence.py lines 55-57), as result plus
post-state. -/
def SequenceDataset.stringsOp (d : SequenceDataset) : List String × SequenceDataset :=
  (d.sequences.map (fun s => s.sequence), d)

/-- `SequenceDataset.numpy` (sequence.py lines 59-61), as result plus
post-state. -/
def SequenceDataset.numpyOp (d : SequenceDataset) : List (List Nat) × SequenceDataset :=
  (d.sequences.map (fun s => s.tokens), d)

/-- One observer call on a `SequenceDataset`. -/
inductive SeqOp where
  | len
  | getitem (idx : Nat)
  | strings
  | numpy
deriving DecidableEq, Repr

/-- The state after one call. -/
def stepOp (d : SequenceDataset) : SeqOp → SequenceDataset
  | SeqOp.len => d.lenOp.2
  | SeqOp.getitem idx => (d.getitem idx).2
  | SeqOp.strings => d.stringsOp.2
  | SeqOp.numpy => d.numpyOp.2

/-- The state after a sequence of calls. -/
def runOps (d : SequenceDataset) : List SeqOp → SequenceDataset
  | [] => d
  | op :: ops => runOps (stepOp d op) ops

/-! ## Lemmas about the dict model -/

theorem getF_setF_self (m : List (String × Option String)) (k : String) (v : Option String) :
    getF (setF m k v) k = some v := by
  induction m with
  | nil => simp [setF, getF]
  | cons kv rest ih =>
    by_cases h : kv.1 = k <;> simp [setF, getF, h, ih]

theorem getF_setF_ne (m : List (String × Option String)) (k k' : String) (v : Option String)
    (h : k' ≠ k) : getF (setF m k v) k' = getF m k' := by
  have h1 : ¬(k = k') := fun hh => h hh.symm
  induction m with
  | nil => simp [setF, getF, h1]
  | cons kv rest ih =>
    by_cases hk : kv.1 = k
    · have h2 : ¬(kv.1 = k') := by rw [hk]; exact h1
      simp [setF, getF, hk, h1, h2]
    · by_cases hk' : kv.1 = k' <;> simp [setF, getF, hk, hk', ih, h]

theorem getF_attachOpt_ne (p : List (String × Option String)) (key k : String)
    (cell : Option (Option String)) (h : k ≠ key) :
    getF (attachOpt p key cell) k = getF p k := by
  cases cell with
  | none => rfl
  | some v => exact getF_setF_ne _ _ _ _ h

theorem getF_attachOpt_some (p : List (String × Option String)) (key : String)
    (v : Option String) : getF (attachOpt p key (some v)) key = some v :=
  getF_setF_self _ _ _

theorem attachCols_getF_notmem (row : List (String × Option String)) (cols : List String)
    (p : List (String × Option String)) (k : String) (h : k ∉ cols) :
    getF (attachCols row cols p) k = getF p k := by
  induction cols generalizing p with
  | nil => rfl
  | cons c rest ih =>
    have hkc : k ≠ c := fun hh => h (hh ▸ List.mem_cons_self c rest)
    have hkr : k ∉ rest := fun hh => h (List.mem_cons_of_mem c hh)
    rcases hv : getF row c with _ | _ | v <;>
      simp [attachCols, hv, ih _ hkr, getF_setF_ne _ _ _ _ hkc]

theorem attachCols_getF_some (row : List (String × Option String)) (cols : List String)
    (p : List (String × Option String)) (k : String) (v : String)
    (hmem : k ∈ cols) (hnd : cols.Nodup) (hrow : getF row k = some (some v)) :
    getF (attachCols row cols p) k = some (some v) := by
  induction cols generalizing p with
  | nil => cases hmem
  | cons c rest ih =>
    rcases List.mem_cons.mp hmem with hkc | hkr
    · subst hkc
      have hkrest : k ∉ rest := (List.nodup_cons.mp hnd).1
      simp [attachCols, hrow, attachCols_getF_notmem _ _ _ _ hkrest, getF_setF_self]
    · rcases hv : getF row c with _ | _ | w <;>
        simp [attachCols, hv, ih _ hkr (List.nodup_cons.mp hnd).2]

/-! ## Claims C3 and C4: the metadata join -/

/-- Claim C3 as stated: whenever the protein's ID occurs as a substring of
at least one metadata ID, `add_protein_attributes` attaches the metadata
of **every** matching CSV row (each listed field when present and
non-null). -/
def ClaimC3 (metadata : List (List (String × Option String))) (pd : ProteinDict)
    (pid : String) : Prop :=
  getF pd.protein "ID" = some (some pid) →
  (∃ row ∈ metadata, rowMatches pid row = true) →
  ∃ res, add_protein_attributes true metadata pd = some res ∧
    ∀ row ∈ metadata, rowMatches pid row = true →
      (∀ v, getF row "affinity" = some (some v) →
        getF res.protein "binding_affinity" = some (some v)) ∧
      (∀ v, getF row "ligand_smiles" = some (some v) →
        getF res.protein "ligand_smiles" = some (some v)) ∧
      (∀ c ∈ (["resolution", "r_work", "r_free", "method"] : List String),
        ∀ v, getF row c = some (some v) → getF res.protein c = some (some v))

/-- Metadata with two rows whose IDs both contain `"a1"` but whose
affinities differ: only the first can be attached. -/
def md3 : List (List (String × Option String)) :=
  [[("ID", some "xa1"), ("affinity", some "3")],
   [("ID", some "ya1"), ("affinity", some "7")]]

/-- A protein whose ID `"a1"` matches both rows of `md3`. -/
def pd3 : ProteinDict := ⟨[("ID", some "a1")], [], []⟩

/-- The value `add_protein_attributes` actually computes on `md3`/`pd3`. -/
def res3 : ProteinDict := ⟨[("ID", some "a1"), ("binding_affinity", some "3")], [], []⟩

/-- C3, counterexample: with two matching rows of different affinity, the
code attaches only `iloc[0]` — the second matching row's affinity `"7"`
is never attached, refuting the claim as stated. -/
theorem c3_counterexample : ¬ ClaimC3 md3 pd3 "a1" := by
  intro h
  obtain ⟨res, hres, hall⟩ := h rfl ⟨md3[0], by decide, by decide⟩
  have hval : add_protein_attributes true md3 pd3 = some res3 := by decide
  rw [hval] at hres
  obtain rfl : res3 = res := Option.some.inj hres
  have h7 := (hall md3[1] (by decide) (by decide)).1 "7" (by decide)
  exact absurd h7 (by decide)

/-- C3, amended: `add_protein_attributes` attaches the metadata of the
**first** matching CSV row (in CSV order): `affinity` (stored as
`binding_affinity`) and `ligand_smiles` whenever the column is present
(its value copied even when null), and `resolution`, `r_work`, `r_free`,
`method` when present and non-null. -/
theorem c3_first_row_attached (metadata : List (List (String × Option String)))
    (pd : ProteinDict) (pid : String) (row : List (String × Option String))
    (rest : List (List (String × Option String)))
    (hid : getF pd.protein "ID" = some (some pid))
    (hfil : metadata.filter (fun r => rowMatches pid r) = row :: rest) :
    ∃ res, add_protein_attributes true metadata pd = some res ∧
      (∀ v, getF row "affinity" = some v →
        getF res.protein "binding_affinity" = some v) ∧
      (∀ v, getF row "ligand_smiles" = some v →
        getF res.protein "ligand_smiles" = some v) ∧
      (∀ c ∈ (["resolution", "r_work", "r_free", "method"] : List String),
        ∀ v, getF row c = some (some v) → getF res.protein c = some (some v)) := by
  refine ⟨{ pd with
      protein := attachCols row ["resolution", "r_work", "r_free", "method"]
        (attachOpt (attachOpt pd.protein "binding_affinity" (getF row "affinity"))
          "ligand_smiles" (getF row "ligand_smiles")) },
    by simp [add_protein_attributes, hid, hfil], ?_, ?_, ?_⟩
  · intro v hv
    rw [attachCols_getF_notmem _ _ _ _ (by decide),
      getF_attachOpt_ne _ _ _ _ (by decide), hv]
    exact getF_attachOpt_some _ _ _
  · intro v hv
    rw [attachCols_getF_notmem _ _ _ _ (by decide), hv]
    exact getF_attachOpt_some _ _ _
  · intro c hc v hv
    exact attachCols_getF_some _ _ _ _ _ hc (by decide) hv

/-- Witness data for the amended C3. -/
def md3w : List (List (String × Option String)) :=
  [[("ID", some "xb2"), ("affinity", some "3"), ("resolution", some "2.0")]]

/-- Witness protein for the amended C3. -/
def pd3w : ProteinDict := ⟨[("ID", some "b2")], [], []⟩

/-- Witness for the amended C3 at concrete input. -/
theorem c3_first_row_attached_witness :
    ∃ res, add_protein_attributes true md3w pd3w = some res ∧
      getF res.protein "binding_affinity" = some (some "3") ∧
      getF res.protein "resolution" = some (some "2.0") := by
  obtain ⟨res, hres, haff, _, hcols⟩ :=
    c3_first_row_attached md3w pd3w "b2" md3w[0] [] rfl (by decide)
  exact ⟨res, hres, haff (some "3") (by decide), hcols "resolution" (by decide) "2.0" (by decide)⟩

/-- Claim C4 as stated: `add_protein_attributes` only adds fields under
`protein` — `residue`, `atom`, and every pre-existing `protein` field are
unchanged. -/
def ClaimC4 (metadataExists : Bool) (metadata : List (List (String × Option String)))
    (pd : ProteinDict) : Prop :=
  ∀ res, add_protein_attributes metadataExists metadata pd = some res →
    res.residue = pd.residue ∧ res.atom = pd.atom ∧
    ∀ k v, getF pd.protein k = some v → getF res.protein k = some v

/-- A protein carrying a pre-existing `resolution` field. -/
def pd4 : ProteinDict :=
  ⟨[("ID", some "a1"), ("resolution", some "orig")], [("x", some "1")], []⟩

/-- Metadata whose matching row carries a different `resolution`. -/
def md4 : List (List (String × Option String)) :=
  [[("ID", some "xa1"), ("resolution", some "2.0")]]

/-- C4, counterexample: a pre-existing `protein['resolution']` field is
overwritten by the join (`"orig"` becomes `"2.0"`), refuting the claim
that every pre-existing field of `protein` is unchanged. -/
theorem c4_counterexample : ¬ ClaimC4 true md4 pd4 := by
  intro h
  obtain ⟨-, -, hkeep⟩ :=
    h ⟨[("ID", some "a1"), ("resolution", some "2.0")], [("x", some "1")], []⟩ (by decide)
  exact absurd (hkeep "resolution" (some "orig") (by decide)) (by decide)

/-- C4, amended: the join never touches `residue` or `atom`, and every
pre-existing `protein` field whose name is not one of the six attached
metadata fields (`binding_affinity`, `ligand_smiles`, `resolution`,
`r_work`, `r_free`, `method`) is unchanged; fields with those six names
may be overwritten. -/
theorem c4_frame (metadataExists : Bool) (metadata : List (List (String × Option String)))
    (pd : ProteinDict) (pid : String)
    (hid : getF pd.protein "ID" = some (some pid)) :
    ∃ res, add_protein_attributes metadataExists metadata pd = some res ∧
      res.residue = pd.residue ∧ res.atom = pd.atom ∧
      ∀ k, k ∉ (["binding_affinity", "ligand_smiles", "resolution",
          "r_work", "r_free", "method"] : List String) →
        getF res.protein k = getF pd.protein k := by
  cases metadataExists with
  | false => exact ⟨pd, rfl, rfl, rfl, fun k _ => rfl⟩
  | true =>
    rcases hfil : metadata.filter (fun r => rowMatches pid r) with _ | ⟨row, rest⟩
    · refine ⟨pd, ?_, rfl, rfl, fun k _ => rfl⟩
      simp [add_protein_attributes, hid, hfil]
    · refine ⟨{ pd with
          protein := attachCols row ["resolution", "r_work", "r_free", "method"]
            (attachOpt (attachOpt pd.protein "binding_affinity" (getF row "affinity"))
              "ligand_smiles" (getF row "ligand_smiles")) },
        by simp [add_protein_attributes, hid, hfil], rfl, rfl, ?_⟩
      intro k hk
      simp only [List.mem_cons, List.not_mem_nil, or_false, not_or] at hk
      obtain ⟨h1, h2, h3, h4, h5, h6⟩ := hk
      have hk4 : k ∉ (["resolution", "r_work", "r_free", "method"] : List String) := by
        simp only [List.mem_cons, List.not_mem_nil, or_false, not_or]
        exact ⟨h3, h4, h5, h6⟩
      rw [attachCols_getF_notmem _ _ _ _ hk4,
        getF_attachOpt_ne _ _ _ _ h2, getF_attachOpt_ne _ _ _ _ h1]

/-- Witness for the amended C4 at concrete input. -/
theorem c4_frame_witness :
    ∃ res, add_protein_attributes true md4 pd4 = some res ∧
      res.residue = pd4.residue ∧ res.atom = pd4.atom ∧
      getF res.protein "ID" = getF pd4.protein "ID" := by
  obtain ⟨res, hres, hresi, hatom, hkeep⟩ := c4_frame true md4 pd4 "a1" (by decide)
  exact ⟨res, hres, hresi, hatom, hkeep "ID" (by decide)⟩

/-! ## Claims C1, C6, C7: the download loop -/

theorem attemptsOf_append (a b : List Event) :
    attemptsOf (a ++ b) = attemptsOf a ++ attemptsOf b :=
  List.filterMap_append a b _

theorem attemptsOf_dlStep (dl : String → Option String) (f : String) :
    attemptsOf (dlStep dl f) = [f] := by
  rcases h : dl f with _ | e <;> simp [dlStep, attemptsOf, h]

theorem attemptsOf_dlPhase (dl : String → Option String) (files : List String) :
    attemptsOf (files.flatMap (dlStep dl)) = files := by
  induction files with
  | nil => rfl
  | cons f fs ih =>
    rw [List.flatMap_cons, attemptsOf_append, attemptsOf_dlStep, ih]
    rfl

theorem attemptsOf_extractStep (root : String) (fexists : String → Bool)
    (extractRes : String → Option String) (f : String) :
    attemptsOf (extractStep root fexists extractRes f) = [] := by
  unfold extractStep
  split
  · split
    · rcases h : extractRes (root ++ "/raw/" ++ f) with _ | e <;> simp [attemptsOf, h]
    · rfl
  · rfl

theorem attemptsOf_extractPhase (root : String) (fexists : String → Bool)
    (extractRes : String → Option String) (files : List String) :
    attemptsOf (files.flatMap (extractStep root fexists extractRes)) = [] := by
  induction files with
  | nil => rfl
  | cons f fs ih =>
    rw [List.flatMap_cons, attemptsOf_append, attemptsOf_extractStep, ih]
    rfl

theorem attemptsOf_pdbWarn (numPdb : Nat) :
    attemptsOf (if numPdb = 0 then [Event.warnNoPdb] else []) = [] := by
  split <;> rfl

/-- For any oracle behaviour, `download` attempts exactly the resolved
file list, in order. -/
theorem attemptsOf_download (subset : String) (include_md : Bool) (root : String)
    (dl : String → Option String) (fexists : String → Bool)
    (extractRes : String → Option String) (numPdb : Nat) (files : List String)
    (hf : filesToDownload subset include_md = some files) :
    attemptsOf (download subset include_md root dl fexists extractRes numPdb) = files := by
  unfold download
  rw [hf, attemptsOf_append, attemptsOf_append, attemptsOf_dlPhase,
    attemptsOf_extractPhase, attemptsOf_pdbWarn, List.append_nil, List.append_nil]

/-- C1: for every oracle behaviour (any subset of the fetches and
extractions raising), every file of the batch is still attempted, each
download failure is logged as a warning, and each extraction failure of
an existing `.tar.gz` archive is logged as a warning; `download` returns
a trace in every case (it is a total function), i.e. it never raises. -/
theorem c1_failures_logged_batch_continues (subset : String) (include_md : Bool)
    (root : String) (dl : String → Option String) (fexists : String → Bool)
    (extractRes : String → Option String) (numPdb : Nat) (files : List String)
    (hf : filesToDownload subset include_md = some files) :
    attemptsOf (download subset include_md root dl fexists extractRes numPdb) = files ∧
    (∀ f e, f ∈ files → dl f = some e →
      Event.warnDownload f e ∈ download subset include_md root dl fexists extractRes numPdb) ∧
    (∀ f e, f ∈ files → endsWithTarGz f = true →
      fexists (root ++ "/raw/" ++ f) = true →
      extractRes (root ++ "/raw/" ++ f) = some e →
      Event.warnExtract (root ++ "/raw/" ++ f) e ∈
        download subset include_md root dl fexists extractRes numPdb) := by
  refine ⟨attemptsOf_download _ _ _ _ _ _ _ _ hf, ?_, ?_⟩
  · intro f e hmem hdl
    unfold download
    rw [hf]
    refine List.mem_append_left _ (List.mem_append_left _ ?_)
    exact List.mem_flatMap.mpr ⟨f, hmem, by simp [dlStep, hdl]⟩
  · intro f e hmem hends hfex hex
    unfold download
    rw [hf]
    refine List.mem_append_left _ (List.mem_append_right _ ?_)
    exact List.mem_flatMap.mpr ⟨f, hmem, by simp [extractStep, hends, hfex, hex]⟩

/-- Witness for C1: with every fetch and extraction failing, both
warnings appear and the batch is fully attempted. -/
theorem c1_failures_logged_batch_continues_witness :
    attemptsOf (download "train" false "r" (fun _ => some "boom") (fun _ => true)
      (fun _ => some "bad") 0) = ["train_set.tar.gz", "misato_db.csv"] ∧
    Event.warnDownload "misato_db.csv" "boom" ∈
      download "train" false "r" (fun _ => some "boom") (fun _ => true)
        (fun _ => some "bad") 0 ∧
    Event.warnExtract "r/raw/train_set.tar.gz" "bad" ∈
      download "train" false "r" (fun _ => some "boom") (fun _ => true)
        (fun _ => some "bad") 0 := by
  obtain ⟨h1, h2, h3⟩ := c1_failures_logged_batch_continues "train" false "r"
    (fun _ => some "boom") (fun _ => true) (fun _ => some "bad") 0
    ["train_set.tar.gz", "misato_db.csv"] (by decide)
  exact ⟨h1, h2 "misato_db.csv" "boom" (by decide) rfl,
    h3 "train_set.tar.gz" "bad" (by decide) (by decide) rfl rfl⟩

/-- C6: for a valid subset, the attempted fetch list is exactly the
subset archive, then (iff `include_md`) the MD and QM archives, then the
metadata CSV, in that order. -/
theorem c6_download_file_list (subset : String)
    (hs : subset = "train" ∨ subset = "test" ∨ subset = "val")
    (include_md : Bool) (root : String) (dl : String → Option String)
    (fexists : String → Bool) (extractRes : String → Option String) (numPdb : Nat) :
    attemptsOf (download subset include_md root dl fexists extractRes numPdb) =
      [subset ++ "_set.tar.gz"]
      ++ (if include_md then
            ["MD_" ++ subset ++ "_set.tar.gz", "QM_" ++ subset ++ "_set.tar.gz"]
          else [])
      ++ ["misato_db.csv"] := by
  rcases hs with rfl | rfl | rfl <;> cases include_md <;>
    exact attemptsOf_download _ _ _ _ _ _ _ _ (by decide)

/-- Witness for C6 at subset `"train"` with MD trajectories included. -/
theorem c6_download_file_list_witness :
    attemptsOf (download "train" true "r" (fun _ => none) (fun _ => false)
      (fun _ => none) 1) =
      ["train_set.tar.gz", "MD_train_set.tar.gz", "QM_train_set.tar.gz", "misato_db.csv"] :=
  (c6_download_file_list "train" (Or.inl rfl) true "r" (fun _ => none)
    (fun _ => false) (fun _ => none) 1).trans (by decide)

/-- C7: for an unknown subset, `download` emits exactly one error event
and performs no fetch and no extraction. -/
theorem c7_unknown_subset (subset : String)
    (h1 : subset ≠ "train") (h2 : subset ≠ "test") (h3 : subset ≠ "val")
    (include_md : Bool) (root : String) (dl : String → Option String)
    (fexists : String → Bool) (extractRes : String → Option String) (numPdb : Nat) :
    download subset include_md root dl fexists extractRes numPdb =
      [Event.errored ("Unknown subset: " ++ subset ++ ". Must be one of: train, test, val")] ∧
    attemptsOf (download subset include_md root dl fexists extractRes numPdb) = [] ∧
    extractsOf (download subset include_md root dl fexists extractRes numPdb) = [] := by
  have hnone : filesToDownload subset include_md = none := by
    simp [filesToDownload, h1, h2, h3]
  unfold download extractsOf attemptsOf
  rw [hnone]
  exact ⟨rfl, rfl, rfl⟩

/-- Witness for C7 at subset `"validation"`. -/
theorem c7_unknown_subset_witness :
    download "validation" true "r" (fun _ => none) (fun _ => true) (fun _ => none) 0 =
      [Event.errored "Unknown subset: validation. Must be one of: train, test, val"] :=
  ((c7_unknown_subset "validation" (by decide) (by decide) (by decide) true "r"
    (fun _ => none) (fun _ => true) (fun _ => none) 0).1).trans (by decide)

/-! ## Claims C2 and C8: the sequence wrapper -/

/-- A well-formed protein for exercising the wrapper. -/
def protC2 : ProteinDict := ⟨[("ID", some "p1"), ("sequence", some "ACD")], [], []⟩

/-- A concrete tokenizer for evaluating the wrapper. -/
def tokC2 : String → List Nat := fun s => s.toList.map Char.toNat

/-- C2, evaluated at the failing input: constructing `SequenceDataset`
from a generator of well-formed proteins fails — `len(proteins)` raises
`TypeError` since generators have no `__len__` — while the same proteins
passed as a list construct fine, so the data is not at fault. -/
theorem c2_generator_construction_raises :
    SequenceDataset.init tokC2 (PyIterable.gen [protC2]) "root" "data" 2 = none ∧
    SequenceDataset.init tokC2 (PyIterable.pylist [protC2]) "root" "data" 2 ≠ none :=
  ⟨rfl, by decide⟩

theorem stepOp_id (d : SequenceDataset) (op : SeqOp) : stepOp d op = d := by
  cases op <;> rfl

theorem runOps_id (d : SequenceDataset) (ops : List SeqOp) : runOps d ops = d := by
  induction ops generalizing d with
  | nil => rfl
  | cons op ops ih => rw [runOps, stepOp_id]; exact ih d

theorem initSequences_tokens (tokenize : String → List Nat) (ps : List ProteinDict)
    (seqs : List Sequence) (h : initSequences tokenize ps = some seqs) :
    ∀ s ∈ seqs, s.tokens = tokenize s.sequence ∧ s.data = tokenize s.sequence := by
  induction ps generalizing seqs with
  | nil =>
    cases h
    intro s hs
    cases hs
  | cons p rest ih =>
    rcases hp : Sequence.fromProtein tokenize p with _ | s0 <;>
      rcases hr : initSequences tokenize rest with _ | rest0 <;>
        rw [initSequences, hp, hr] at h <;> cases h
    intro s hs
    rcases List.mem_cons.mp hs with rfl | hmem
    · unfold Sequence.fromProtein at hp
      rcases hg : getF p.protein "sequence" with _ | _ | str <;> rw [hg] at hp <;> cases hp
      exact ⟨rfl, rfl⟩
    · exact ih rest0 hr s hmem

/-- C8: `Sequence` records are immutable under the wrapper's operations:
after any sequence of `__len__`/`__getitem__`/`strings`/`numpy` calls the
dataset state — in particular every record's `sequence` string and
`tokens` array — is exactly its construction-time value, and each
record's `tokens` (and its `data` alias) is `tokenize` of its `sequence`.
-/
theorem c8_records_immutable (tokenize : String → List Nat)
    (proteins : PyIterable ProteinDict) (root name : String) (verbosity : Nat)
    (d : SequenceDataset)
    (hinit : SequenceDataset.init tokenize proteins root name verbosity = some d)
    (ops : List SeqOp) :
    runOps d ops = d ∧
    ∀ s ∈ (runOps d ops).sequences,
      s.tokens = tokenize s.sequence ∧ s.data = tokenize s.sequence := by
  refine ⟨runOps_id d ops, ?_⟩
  rw [runOps_id d ops]
  rcases proteins with xs | xs
  · rcases hr : initSequences tokenize xs with _ | seqs <;>
      simp only [SequenceDataset.init, pyLen, pyElems, hr] at hinit <;> cases hinit
    exact initSequences_tokens tokenize xs seqs hr
  · simp only [SequenceDataset.init, pyLen] at hinit
    cases hinit

/-- Witness protein for C8. -/
def protW : ProteinDict := ⟨[("sequence", some "ACDE")], [], []⟩

/-- Witness tokenizer for C8. -/
def tokW : String → List Nat := fun s => [s.length]

/-- The dataset `SequenceDataset.init` builds from `protW`. -/
def dW : SequenceDataset := ⟨2, "r/processed/sequence/n", [⟨protW, "ACDE", [4], [4]⟩], 1⟩

/-- Witness for C8 at a concrete dataset and call sequence. -/
theorem c8_records_immutable_witness :
    runOps dW [SeqOp.len, SeqOp.getitem 0, SeqOp.strings, SeqOp.numpy] = dW ∧
    ∀ s ∈ (runOps dW [SeqOp.len, SeqOp.getitem 0, SeqOp.strings, SeqOp.numpy]).sequences,
      s.tokens = tokW s.sequence ∧ s.data = tokW s.sequence :=
  c8_records_immutable tokW (PyIterable.pylist [protW]) "r" "n" 2 dW (by decide)
    [SeqOp.len, SeqOp.getitem 0, SeqOp.strings, SeqOp.numpy]

/-! ## Claim C5: `get_id_from_filename` -/

theorem takeWhile_no_slash (l t : List Char) (h : '/' ∉ l) :
    (l ++ '/' :: t).takeWhile (fun c => c != '/') = l := by
  induction l with
  | nil => simp
  | cons c rest ih =>
    have hc : (c != '/') = true := by
      simp only [bne_iff_ne]
      exact fun hh => h (hh ▸ List.mem_cons_self c rest)
    simp [List.takeWhile_cons, hc, ih fun hh => h (List.mem_cons_of_mem c hh)]

theorem basename_append (dir x : List Char) (hx : '/' ∉ x) :
    basename (dir ++ '/' :: x) = x := by
  unfold basename
  rw [List.reverse_append, List.reverse_cons, List.append_assoc, List.singleton_append,
    takeWhile_no_slash _ _ (by simpa using hx), List.reverse_reverse]

theorem stripPdbAux_cons_ne (c : Char) (l : List Char)
    (h : ∀ t, c :: l ≠ '.' :: 'p' :: 'd' :: 'b' :: t) :
    stripPdbAux (c :: l) = c :: stripPdbAux l := by
  rw [stripPdbAux.eq_def]
  split
  next rest heq => exact absurd heq (h rest)
  next c1 rest1 hno heq =>
    injection heq with h1 h2
    subst h1
    subst h2
    rfl
  next x heq => exact absurd heq (by simp)

/-- Appending the extension to a string free of `".pdb"` survives
`replace('.pdb', '')` minus exactly that extension. -/
theorem stripPdbAux_append (name : List Char)
    (h : ¬((['.', 'p', 'd', 'b'] : List Char) <:+: name)) :
    stripPdbAux (name ++ ['.', 'p', 'd', 'b']) = name := by
  induction name with
  | nil => rfl
  | cons c rest ih =>
    have hni : ¬((['.', 'p', 'd', 'b'] : List Char) <:+: rest) :=
      fun hinf => h (List.infix_cons hinf)
    rw [List.cons_append, stripPdbAux_cons_ne, ih hni]
    intro t heq
    rcases rest with _ | ⟨a, _ | ⟨b, _ | ⟨e, rest4⟩⟩⟩ <;> simp at heq
    obtain ⟨rfl, rfl, rfl, rfl, -⟩ := heq
    exact h ⟨[], rest4, by simp⟩

/-- Claim C5 as stated: `get_id_from_filename` returns the basename with
the trailing `".pdb"` extension removed. -/
def ClaimC5 (filename : List Char) : Prop :=
  get_id_from_filename filename = stripTrailingPdb (basename filename)

/-- C5, counterexample: on `"dir/complex.pdb.pdb"` the code removes
**every** occurrence of `".pdb"` and returns `"complex"`, while the
basename minus the trailing extension is `"complex.pdb"`. -/
theorem c5_counterexample : ¬ClaimC5 "dir/complex.pdb.pdb".toList := by
  unfold ClaimC5
  decide

/-- C5, amended: `get_id_from_filename` removes every occurrence of the
substring `".pdb"` from the basename; whenever `".pdb"` occurs in the
basename only as the trailing extension, this coincides with the claim:
the basename with the trailing `".pdb"` removed. -/
theorem c5_id_strips_extension (dir stem : List Char)
    (hslash : '/' ∉ stem) (hinf : ¬((['.', 'p', 'd', 'b'] : List Char) <:+: stem)) :
    get_id_from_filename (dir ++ '/' :: (stem ++ ['.', 'p', 'd', 'b'])) =
      stripTrailingPdb (basename (dir ++ '/' :: (stem ++ ['.', 'p', 'd', 'b']))) ∧
    get_id_from_filename (dir ++ '/' :: (stem ++ ['.', 'p', 'd', 'b'])) = stem := by
  have hx : '/' ∉ stem ++ ['.', 'p', 'd', 'b'] := by
    intro hmem
    rcases List.mem_append.mp hmem with hm | hm
    · exact hslash hm
    · simp at hm
  have hb : basename (dir ++ '/' :: (stem ++ ['.', 'p', 'd', 'b'])) =
      stem ++ ['.', 'p', 'd', 'b'] := basename_append _ _ hx
  have hstrip : get_id_from_filename (dir ++ '/' :: (stem ++ ['.', 'p', 'd', 'b'])) = stem := by
    rw [get_id_from_filename, hb]
    exact stripPdbAux_append stem hinf
  refine ⟨?_, hstrip⟩
  have hpat : ".pdb".toList = ['.', 'p', 'd', 'b'] := rfl
  have hsuf : ".pdb".toList.isSuffixOf (stem ++ ['.', 'p', 'd', 'b']) = true :=
    List.isSuffixOf_iff_suffix.mpr ⟨stem, by rw [hpat]⟩
  rw [hstrip, hb, stripTrailingPdb, if_pos hsuf]
  simp [List.length_append, List.take_left]

/-- Witness for the amended C5 on a typical MISATO filename. -/
theorem c5_id_strips_extension_witness :
    get_id_from_filename "data/raw/files/1abc_lig.pdb".toList =
      stripTrailingPdb (basename "data/raw/files/1abc_lig.pdb".toList) ∧
    get_id_from_filename "data/raw/files/1abc_lig.pdb".toList = "1abc_lig".toList :=
  c5_id_strips_extension "data/raw/files".toList "1abc_lig".toList (by decide) (by decide)

/-! ## Claims C9 and C10: glob-based file discovery -/

theorem splitSlash_ne_nil (x : List Char) : splitSlash x ≠ [] := by
  cases x with
  | nil => simp [splitSlash]
  | cons c rest =>
    rw [splitSlash]
    split
    · simp
    · cases hsp : splitSlash rest <;> simp [hsp]

theorem joinSlash_cons_cons (c : Char) (s : List Char) (ss : List (List Char)) :
    joinSlash ((c :: s) :: ss) = c :: joinSlash (s :: ss) := by
  cases ss <;> simp [joinSlash]

theorem joinSlash_cons (s0 s1 : List Char) (ss : List (List Char)) :
    joinSlash (s0 :: s1 :: ss) = s0 ++ '/' :: joinSlash (s1 :: ss) := rfl

theorem segsMatch_cons_cons (ext d e : List Char) (rest : List (List Char)) :
    segsMatch ext (d :: e :: rest) = (okSeg d && segsMatch ext (e :: rest)) := rfl

theorem joinSlash_splitSlash (x : List Char) : joinSlash (splitSlash x) = x := by
  induction x with
  | nil => rfl
  | cons c rest ih =>
    rw [splitSlash]
    rcases hsp : splitSlash rest with _ | ⟨s0, ss⟩
    · exact absurd hsp (splitSlash_ne_nil rest)
    · rw [hsp] at ih
      split
      next hc =>
        subst hc
        simp [joinSlash, ih]
      next hc =>
        rw [joinSlash_cons_cons, ih]

theorem noslash_splitSlash (x : List Char) : ∀ s ∈ splitSlash x, '/' ∉ s := by
  induction x with
  | nil =>
    intro s hs
    simp [splitSlash] at hs
    simp [hs]
  | cons c rest ih =>
    intro s hs
    rw [splitSlash] at hs
    rcases hsp : splitSlash rest with _ | ⟨s0, ss⟩
    · exact absurd hsp (splitSlash_ne_nil rest)
    · rw [hsp] at hs
      split at hs
      next hc =>
        subst hc
        rcases List.mem_cons.mp hs with rfl | hmem
        · simp
        · exact ih s (hsp ▸ hmem)
      next hc =>
        rcases List.mem_cons.mp hs with rfl | hmem
        · intro hin
          rcases List.mem_cons.mp hin with hh | hh
          · exact hc hh.symm
          · exact ih s0 (hsp ▸ List.mem_cons_self s0 ss) hh
        · exact ih s (hsp ▸ List.mem_cons_of_mem s0 hmem)

theorem splitSlash_no_slash (a : List Char) (h : '/' ∉ a) : splitSlash a = [a] := by
  induction a with
  | nil => rfl
  | cons c a' ih =>
    have hc : ¬(c = '/') := fun hh => h (hh ▸ List.mem_cons_self c a')
    rw [splitSlash, if_neg hc, ih fun hh => h (List.mem_cons_of_mem c hh)]

theorem splitSlash_append_cons (a b : List Char) (h : '/' ∉ a) :
    splitSlash (a ++ '/' :: b) = a :: splitSlash b := by
  induction a with
  | nil => simp [splitSlash]
  | cons c a' ih =>
    have hc : ¬(c = '/') := fun hh => h (hh ▸ List.mem_cons_self c a')
    rw [List.cons_append, splitSlash, if_neg hc,
      ih fun hh => h (List.mem_cons_of_mem c hh)]

theorem splitSlash_joinSlash (parts : List (List Char)) (hne : parts ≠ [])
    (hns : ∀ s ∈ parts, '/' ∉ s) : splitSlash (joinSlash parts) = parts := by
  induction parts with
  | nil => exact absurd rfl hne
  | cons s0 ss ih =>
    cases ss with
    | nil => exact splitSlash_no_slash s0 (hns s0 (List.mem_cons_self s0 []))
    | cons s1 ss' =>
      rw [joinSlash_cons, splitSlash_append_cons _ _ (hns s0 (List.mem_cons_self s0 _)),
        ih (List.cons_ne_nil s1 ss') fun s hs => hns s (List.mem_cons_of_mem s0 hs)]

theorem okSeg_iff (s : List Char) : okSeg s = true ↔ s ≠ [] ∧ s.head? ≠ some '.' := by
  cases s with
  | nil => simp [okSeg]
  | cons c rest => simp [okSeg]

theorem fileMatch_iff (ext name : List Char) (hext : ext ≠ []) :
    fileMatch ext name = true ↔
      name.head? ≠ some '.' ∧ ∃ stem, name = stem ++ ext := by
  rw [fileMatch, Bool.and_eq_true, okSeg_iff, List.isSuffixOf_iff_suffix]
  constructor
  · rintro ⟨⟨-, hhd⟩, stem, hstem⟩
    exact ⟨hhd, stem, hstem.symm⟩
  · rintro ⟨hhd, stem, rfl⟩
    refine ⟨⟨?_, hhd⟩, stem, rfl⟩
    intro hnil
    exact hext (List.append_eq_nil.mp hnil).2

theorem segsMatch_cons_append (ext d : List Char) (rest : List (List Char)) (name : List Char) :
    segsMatch ext (d :: (rest ++ [name])) = (okSeg d && segsMatch ext (rest ++ [name])) := by
  cases rest <;> simp [segsMatch]

theorem segsMatch_decomp (ext : List Char) (parts : List (List Char))
    (h : segsMatch ext parts = true) :
    ∃ dirs name, parts = dirs ++ [name] ∧
      (∀ d ∈ dirs, okSeg d = true) ∧ fileMatch ext name = true := by
  induction parts with
  | nil => cases h
  | cons hd tl ih =>
    cases tl with
    | nil => exact ⟨[], hd, rfl, by simp, by simpa [segsMatch] using h⟩
    | cons e rest =>
      rw [segsMatch_cons_cons, Bool.and_eq_true] at h
      obtain ⟨dirs, name, heq, hdirs, hname⟩ := ih h.2
      refine ⟨hd :: dirs, name, by rw [List.cons_append, heq], ?_, hname⟩
      intro d hd'
      rcases List.mem_cons.mp hd' with rfl | hmem
      · exact h.1
      · exact hdirs d hmem

theorem segsMatch_of_decomp (ext : List Char) (dirs : List (List Char)) (name : List Char)
    (hdirs : ∀ d ∈ dirs, okSeg d = true) (hname : fileMatch ext name = true) :
    segsMatch ext (dirs ++ [name]) = true := by
  induction dirs with
  | nil => simpa [segsMatch] using hname
  | cons d rest ih =>
    rw [List.cons_append, segsMatch_cons_append, Bool.and_eq_true]
    exact ⟨hdirs d (List.mem_cons_self d rest),
      ih fun d' hd' => hdirs d' (List.mem_cons_of_mem d hd')⟩

/-- The recursive matcher agrees with the declarative decomposition of
the pattern `{base}/**/*{ext}`. -/
theorem globMatch_iff (base ext p : List Char) (hext : ext ≠ []) :
    globMatch base ext p = true ↔ GlobSpec base ext p := by
  rw [globMatch, Bool.and_eq_true, List.isPrefixOf_iff_prefix]
  constructor
  · rintro ⟨⟨rest, hrest⟩, hseg⟩
    have hdrop : p.drop (base.length + 1) = rest := by
      rw [← hrest]
      simp
    rw [hdrop] at hseg
    obtain ⟨dirs, name, hparts, hdirs, hname⟩ := segsMatch_decomp ext _ hseg
    have hrestj : rest = joinSlash (dirs ++ [name]) := by
      rw [← hparts, joinSlash_splitSlash]
    obtain ⟨hhd, stem, hstem⟩ := (fileMatch_iff ext name hext).mp hname
    refine ⟨dirs, name, stem, ?_, ?_, hhd, ?_, hstem⟩
    · rw [← hrest, hrestj]
      simp
    · intro d hd
      obtain ⟨hne, hh⟩ := (okSeg_iff d).mp (hdirs d hd)
      refine ⟨hne, hh, ?_⟩
      exact noslash_splitSlash rest d (hparts ▸ List.mem_append_left _ hd)
    · exact noslash_splitSlash rest name
        (hparts ▸ List.mem_append_right _ (List.mem_cons_self name []))
  · rintro ⟨dirs, name, stem, hp, hdirs, hhd, hnsl, hstem⟩
    have hns : ∀ s ∈ dirs ++ [name], '/' ∉ s := by
      intro s hs
      rcases List.mem_append.mp hs with hm | hm
      · exact (hdirs s hm).2.2
      · rcases List.mem_cons.mp hm with rfl | hm'
        · exact hnsl
        · cases hm'
    have hsplit : splitSlash (joinSlash (dirs ++ [name])) = dirs ++ [name] :=
      splitSlash_joinSlash _ (by simp) hns
    have hdrop : p.drop (base.length + 1) = joinSlash (dirs ++ [name]) := by
      rw [hp]
      have : base ++ '/' :: joinSlash (dirs ++ [name]) =
          (base ++ ['/']) ++ joinSlash (dirs ++ [name]) := by simp
      rw [this]
      simp
    constructor
    · exact ⟨joinSlash (dirs ++ [name]), by rw [hp]; simp⟩
    · rw [hdrop, hsplit]
      refine segsMatch_of_decomp ext dirs name ?_ ?_
      · intro d hd
        exact (okSeg_iff d).mpr ⟨(hdirs d hd).1, (hdirs d hd).2.1⟩
      · refine (fileMatch_iff ext name hext).mpr ⟨hhd, stem, hstem⟩

theorem get_md_files_filter (root : List Char) (fs : List (List Char)) :
    get_md_files true root fs =
      fs.filter (globMatch (root ++ "/raw/files".toList) ".xtc".toList) := rfl

/-- Claim C9 as stated for the `.xtc` discovery operation: it is claimed
to return exactly the matching files with no proviso on `include_md`. -/
def ClaimC9xtc (include_md : Bool) (root : List Char) (fs : List (List Char)) : Prop :=
  ∀ p, p ∈ get_md_files include_md root fs ↔
    p ∈ fs ∧ GlobSpec (root ++ "/raw/files".toList) ".xtc".toList p

/-- C9, counterexample: with `include_md = false` and an existing
matching `.xtc` file, `get_md_files` returns `[]`, so it does not return
the matching files. -/
theorem c9_counterexample : ¬ClaimC9xtc false "r".toList ["r/raw/files/t.xtc".toList] := by
  intro h
  have hmem := (h "r/raw/files/t.xtc".toList).mpr
    ⟨by simp, ([] : List (List Char)), "t.xtc".toList, "t".toList,
      by decide, by simp, by decide, by decide, by decide⟩
  simp [get_md_files] at hmem

/-- C9, amended: `get_raw_files`, `get_ligand_files` and — when
`include_md` is true — `get_md_files` return exactly the files under the
root's `raw/files` directory (searched recursively) whose names match
`*.pdb`, `*.sdf`, `*.xtc` respectively, and no other files; when
`include_md` is false, `get_md_files` returns the empty list whatever
`.xtc` files exist. -/
theorem c9_file_discovery (root : List Char) (fs : List (List Char)) (p : List Char) :
    (p ∈ get_raw_files root fs ↔
      p ∈ fs ∧ GlobSpec (root ++ "/raw/files".toList) ".pdb".toList p) ∧
    (p ∈ get_ligand_files root fs ↔
      p ∈ fs ∧ GlobSpec (root ++ "/raw/files".toList) ".sdf".toList p) ∧
    (p ∈ get_md_files true root fs ↔
      p ∈ fs ∧ GlobSpec (root ++ "/raw/files".toList) ".xtc".toList p) ∧
    get_md_files false root fs = [] := by
  refine ⟨?_, ?_, ?_, rfl⟩
  · rw [get_raw_files, List.mem_filter]
    exact and_congr_right fun _ => globMatch_iff _ _ _ (by decide)
  · rw [get_ligand_files, List.mem_filter]
    exact and_congr_right fun _ => globMatch_iff _ _ _ (by decide)
  · rw [get_md_files_filter, List.mem_filter]
    exact and_congr_right fun _ => globMatch_iff _ _ _ (by decide)

/-- C10: `get_md_files` is gated on `include_md`: false yields `[]`
regardless of the filesystem; true yields exactly the recursive `*.xtc`
matches under `raw/files`. -/
theorem c10_md_files_gated (root : List Char) (fs : List (List Char)) :
    get_md_files false root fs = [] ∧
    ∀ p, p ∈ get_md_files true root fs ↔
      p ∈ fs ∧ GlobSpec (root ++ "/raw/files".toList) ".xtc".toList p := by
  refine ⟨rfl, fun p => ?_⟩
  rw [get_md_files_filter, List.mem_filter]
  exact and_congr_right fun _ => globMatch_iff _ _ _ (by decide)

end ProteinShake
